import Mathlib

/-!
Verification development for the research-agent knowledge store.

The definitions below are a shallow embedding of
`src/research_agent/storage/collection.py` (the SQLite + hnswlib vector
collection), `src/research_agent/tools/quote_validator.py` (the quote
integrity validator) and `src/research_agent/tools/finding_queue.py`
(the background ingestion queue).  Machine floats from the Python code are
modelled as rationals, SQLite rows as Lean lists, and the hnswlib index as
an association list from integer labels to vectors.
-/

/-! ## Text normalization (quote_validator.normalize_text and str.split) -/

/-- Helper for `splitWs`: walk the characters, accumulating the current word
(in reverse); whitespace runs close the word, and no empty words are
produced. -/
def splitWsAux : List Char → List Char → List String
  | [], acc => if acc.isEmpty then [] else [String.mk acc.reverse]
  | c :: cs, acc =>
    if c.isWhitespace then
      if acc.isEmpty then splitWsAux cs []
      else String.mk acc.reverse :: splitWsAux cs []
    else splitWsAux cs (c :: acc)

/-- Model of Python `text.split()`: split on whitespace runs, dropping empty
pieces. -/
def splitWs (s : String) : List String :=
  splitWsAux s.toList []

/-- Model of Python `str.lower()` (ASCII case folding, as in the sources
compared here). -/
def lowerStr (s : String) : String :=
  String.mk (s.toList.map Char.toLower)

/-- Model of Python `str.strip()` on the character list. -/
def trimChars (l : List Char) : List Char :=
  ((l.dropWhile Char.isWhitespace).reverse.dropWhile Char.isWhitespace).reverse

/-- Model of Python `' '.join(words)`. -/
def joinWords : List String → String
  | [] => ""
  | [w] => w
  | w :: ws => w ++ " " ++ joinWords ws

/-- Model of `normalize_text`: `re.sub(r'\s+', ' ', text).strip().lower()`,
which equals lowercasing and rejoining the whitespace-split words with single
spaces. -/
def normalize_text (s : String) : String :=
  joinWords ((splitWs s).map lowerStr)

/-- Decides whether `needle` is a prefix of `hay` (model of Python string
comparison used below). -/
def isPrefixList : List Char → List Char → Bool
  | [], _ => true
  | _ :: _, [] => false
  | a :: as, b :: bs => a == b && isPrefixList as bs

/-- Decides whether `needle` occurs contiguously inside `hay`: model of the
Python substring test `needle in hay`. -/
def isSubstr (needle : List Char) : List Char → Bool
  | [] => needle.isEmpty
  | c :: rest => isPrefixList needle (c :: rest) || isSubstr needle rest

/-- Python `needle in hay` on strings. -/
def containsSub (needle hay : String) : Bool :=
  isSubstr needle.toList hay.toList

/-! ## quote_validator.find_exact_match -/

/-- The window scan inside `find_exact_match`: for each start position the
window of `len` source words is rejoined and compared, after normalization,
against the normalized quote `nq`; the first matching window is returned.
Python iterates `i in range(len(original_words) - len + 1)`, which is what
the structural recursion below performs (when the word list is shorter than
`len` the range is empty and the scan fails). -/
def scanWindows (len : Nat) (nq : String) : List String → Option String
  | [] =>
    if 0 < len then none
    else if normalize_text (joinWords ([].take len)) = nq then
      some (joinWords (([] : List String).take len))
    else none
  | w :: t =>
    if (w :: t).length < len then none
    else if normalize_text (joinWords ((w :: t).take len)) = nq then
      some (joinWords ((w :: t).take len))
    else scanWindows len nq t

/-- Model of `find_exact_match(quote, source_text)`. -/
def find_exact_match (quote source_text : String) : Option String :=
  let nq := normalize_text quote
  let ns := normalize_text source_text
  if containsSub nq ns then
    match scanWindows (splitWs nq).length nq (splitWs source_text) with
    | some w => some w
    | none => some quote
  else none

/-! ## Exact rational helpers

The library's `Rat.mul`, `Rat.add`, `Rat.sub` and `Rat.div` are marked
irreducible, which blocks kernel evaluation of concrete program states, so
the model computes with the equivalent explicit numerator/denominator
formulas; the bridge lemmas certify that they agree with the field
operations on `ℚ`. -/

/-- Rational multiplication in explicit form. -/
def ratMul (a b : ℚ) : ℚ := mkRat (a.num * b.num) (a.den * b.den)

/-- Rational addition in explicit form. -/
def ratAdd (a b : ℚ) : ℚ := mkRat (a.num * b.den + b.num * a.den) (a.den * b.den)

/-- Rational subtraction in explicit form. -/
def ratSub (a b : ℚ) : ℚ := mkRat (a.num * b.den - b.num * a.den) (a.den * b.den)

/-- Bridge: `ratAdd` is addition on `ℚ`. -/
theorem ratAdd_eq (a b : ℚ) : ratAdd a b = a + b := (Rat.add_def' a b).symm

/-- Bridge: `ratSub` is subtraction on `ℚ`. -/
theorem ratSub_eq (a b : ℚ) : ratSub a b = a - b := (Rat.sub_def' a b).symm

/-- Bridge: `ratMul` is multiplication on `ℚ`. -/
theorem ratMul_eq (a b : ℚ) : ratMul a b = a * b := by
  rw [ratMul, Rat.mul_def, Rat.normalize_eq_mkRat]

/-! ## rapidfuzz fuzz.ratio -/

/-- One row update of the longest-common-subsequence dynamic program:
`c` is the next character of the first string, the arguments are the
remaining characters of the second string, the remaining entries of the
previous row starting at the diagonal cell, and the freshly computed cell to
the left. -/
def lcsNextRow (c : Char) : List Char → List Nat → Nat → List Nat
  | [], _, _ => []
  | _ :: _, [], _ => []
  | b :: bs, pdiag :: prest, left =>
    let up := prest.headD 0
    let cur := if c == b then pdiag + 1 else max left up
    cur :: lcsNextRow c bs prest cur

/-- Length of the longest common subsequence of two character lists. -/
def lcsLen (a b : List Char) : Nat :=
  let row0 := List.replicate (b.length + 1) 0
  let finalRow := a.foldl (fun row c => 0 :: lcsNextRow c b row 0) row0
  finalRow.getLastD 0

/-- Model of `rapidfuzz.fuzz.ratio(a, b) / 100`: the normalized indel
similarity `2·LCS(a,b) / (|a| + |b|)`, scaled to `[0, 1]`.  rapidfuzz
returns `100` for two empty strings. -/
def fuzz_ratio (a b : String) : ℚ :=
  if a.length + b.length = 0 then 1
  else mkRat (2 * (lcsLen a.toList b.toList : ℤ)) (a.length + b.length)

/-! ## quote_validator.find_fuzzy_match -/

/-- The mutable scan state of `find_fuzzy_match`: best ratio seen so far and
the word span `[best_start, best_end)` that achieved it. -/
structure FuzzyState where
  best_ratio : ℚ
  best_start : Nat
  best_end : Nat
deriving DecidableEq

/-- Inner loop of `find_fuzzy_match` over start positions `i` for a fixed
window size `ws`; `fuel` counts the remaining positions
(`len(source_words) - ws + 1` at the initial call).  A `Sum.inr` result is
the early return taken when a ratio of at least `0.98` strictly improves the
best ratio. -/
def scanPosAux (nq : String) (swn : List String) (ws : Nat) :
    Nat → Nat → FuzzyState → FuzzyState ⊕ FuzzyState
  | _, 0, st => Sum.inl st
  | i, fuel + 1, st =>
    let wn := joinWords ((swn.drop i).take ws)
    let r := fuzz_ratio nq wn
    if st.best_ratio < r then
      if mkRat 98 100 ≤ r then Sum.inr ⟨r, i, i + ws⟩
      else scanPosAux nq swn ws (i + 1) fuel ⟨r, i, i + ws⟩
    else scanPosAux nq swn ws (i + 1) fuel st

/-- Outer loop of `find_fuzzy_match` over the window sizes. -/
def scanAllSizes (nq : String) (swn : List String) :
    List Nat → FuzzyState → FuzzyState ⊕ FuzzyState
  | [], st => Sum.inl st
  | ws :: rest, st =>
    match scanPosAux nq swn ws 0 (swn.length + 1 - ws) st with
    | Sum.inr st' => Sum.inr st'
    | Sum.inl st' => scanAllSizes nq swn rest st'

/-- Model of `find_fuzzy_match(quote, source_text, min_ratio)`.  Window sizes
run from `max(1, quote_word_count - 5)` to
`min(quote_word_count + 5, len(source_words))`. -/
def find_fuzzy_match (quote source_text : String) (min_ratio : ℚ) :
    Option String × ℚ :=
  let nq := normalize_text quote
  let qwc := (splitWs nq).length
  if qwc = 0 then (none, 0)
  else
    let swo := splitWs source_text
    let swn := swo.map lowerStr
    let minW := max 1 (qwc - 5)
    let sizesStop := min (qwc + 5 + 1) (swo.length + 1)
    match scanAllSizes nq swn (List.range' minW (sizesStop - minW)) ⟨0, 0, 0⟩ with
    | Sum.inr st =>
      (some (joinWords ((swo.drop st.best_start).take (st.best_end - st.best_start))),
       st.best_ratio)
    | Sum.inl st =>
      if min_ratio ≤ st.best_ratio then
        (some (joinWords ((swo.drop st.best_start).take (st.best_end - st.best_start))),
         st.best_ratio)
      else (none, st.best_ratio)

/-! ## quote_validator.validate_direct_quote -/

/-- Result record of `validate_direct_quote`. -/
structure QuoteValidationResult where
  valid : Bool
  matched_text : Option String
  match_ratio : ℚ
  error : Option String
deriving DecidableEq

/-- Python truthiness of an optional string: `None` and `""` are falsy. -/
def truthyOpt : Option String → Bool
  | none => false
  | some s => !(s == "")

/-- Model of Python `f"{ratio:.0%}"`: the percentage rounded to an integer
(`⌊100·r + 1/2⌋`, written on the numerator and denominator). -/
def percentStr (r : ℚ) : String :=
  toString ((200 * r.num + r.den) / (2 * (r.den : ℤ))) ++ "%"

/-- The rejection message built by `validate_direct_quote` (the Python
literal quotes the words paraphrase and summary). -/
def quoteNotFoundMsg (r : ℚ) : String :=
  "Quote not found in source. Best match had only " ++ percentStr r ++
    " similarity. Direct quotes must be exact or near-exact matches from the source text. Consider using paraphrase or summary instead if you are restating the information."

/-- Model of `validate_direct_quote` after the page fetch succeeded:
`source_text` is the fetched page text (fetching itself is I/O and out of
scope).  Mirrors the short-source guard, the exact phase, the fuzzy phase and
the final rejection, including Python truthiness of the matched strings. -/
def validate_direct_quote (quote source_text : String)
    (min_fuzzy_ratio : ℚ) : QuoteValidationResult :=
  if (trimChars source_text.toList).length < 10 then
    { valid := false, matched_text := none, match_ratio := 0,
      error := some ("Source page has no readable content") }
  else
    let exact := find_exact_match quote source_text
    if truthyOpt exact then
      { valid := true, matched_text := exact, match_ratio := 1, error := none }
    else
      let fr := find_fuzzy_match quote source_text min_fuzzy_ratio
      if truthyOpt fr.1 then
        { valid := true, matched_text := fr.1, match_ratio := fr.2, error := none }
      else
        { valid := false, matched_text := none, match_ratio := fr.2,
          error := some (quoteNotFoundMsg fr.2) }

/-! ## storage.collection: data model

SQLite stores rows `(id INTEGER PRIMARY KEY, doc_id TEXT UNIQUE NOT NULL,
text, metadata, created_at)`; the serialized JSON metadata is kept as an
opaque string and the REAL timestamp as a rational.  Without `AUTOINCREMENT`,
SQLite assigns a fresh `id` as one more than the largest `id` currently in
the table (1 for an empty table); rows therefore always append in `id`
order, which is also the order of a full table scan. -/

/-- One row of the `embeddings` table. -/
structure Row where
  id : Nat
  doc_id : String
  text : String
  metadata : String
  created_at : ℚ
deriving DecidableEq

/-- The `Embedding` dataclass handed to `Collection.add`. -/
structure Embedding where
  vector : List ℚ
  text : String
  doc_id : String
  metadata : String
  created_at : ℚ
deriving DecidableEq

/-- One entry of a `Collection.search` result list. -/
structure SearchResult where
  text : String
  doc_id : String
  metadata : String
  distance : ℚ
  created_at : ℚ
deriving DecidableEq

/-- State of a `Collection`: the SQLite table (rows in rowid order), the
hnswlib index as the list of `(label, vector)` items ever added, and the
index capacity (`max_elements`). -/
structure Collection where
  rows : List Row
  index : List (Nat × List ℚ)
  indexCapacity : Nat
deriving DecidableEq

/-- A freshly initialized collection: empty table, empty index with
capacity 1000. -/
def emptyCollection : Collection :=
  { rows := [], index := [], indexCapacity := 1000 }

/-- SQLite rowid assignment for `INTEGER PRIMARY KEY` without
`AUTOINCREMENT`: one more than the largest rowid currently in the table. -/
def nextRowId (rows : List Row) : Nat :=
  (rows.map Row.id).foldr max 0 + 1

/-- Model of `Collection._resize_index_if_needed`: double the capacity or grow to
`new_count + 1000`, whichever is larger, once `new_count` reaches it. -/
def resizeCap (cap new_count : Nat) : Nat :=
  if cap ≤ new_count then max (cap * 2) (new_count + 1000) else cap

/-- Model of `Collection.count`: `SELECT COUNT(*) FROM embeddings`. -/
def Collection.count (c : Collection) : Nat := c.rows.length

/-- Model of `Collection.add`: inside one critical section, insert the metadata row
(the UNIQUE constraint on `doc_id` aborts the insert and rolls back,
modelled as `none`), then add the vector to the index under the assigned
rowid, growing the capacity first if needed. -/
def Collection.add (c : Collection) (e : Embedding) : Option Collection :=
  if c.rows.any (fun r => r.doc_id == e.doc_id) then none
  else
    let rid := nextRowId c.rows
    some { rows := c.rows ++ [⟨rid, e.doc_id, e.text, e.metadata, e.created_at⟩],
           index := c.index ++ [(rid, e.vector)],
           indexCapacity := resizeCap c.indexCapacity rid }

/-- The metadata-insert loop of `Collection.add_batch`: insert each row in
turn, collecting the assigned rowids paired with the vectors; any UNIQUE
violation aborts the whole transaction (`none`), which SQLite rolls back. -/
def insertRows : List Row → List Embedding → Option (List Row × List (Nat × List ℚ))
  | rows, [] => some (rows, [])
  | rows, e :: es =>
    if rows.any (fun r => r.doc_id == e.doc_id) then none
    else
      let rid := nextRowId rows
      match insertRows (rows ++ [⟨rid, e.doc_id, e.text, e.metadata, e.created_at⟩]) es with
      | none => none
      | some (rows', pairs) => some (rows', (rid, e.vector) :: pairs)

/-- Largest assigned rowid of a batch (`max(row_ids)` in the source). -/
def maxLabel (pairs : List (Nat × List ℚ)) : Nat :=
  (pairs.map Prod.fst).foldr max 0

/-- Model of `Collection.add_batch`: no-op on an empty batch; otherwise one bulk
metadata insert followed by one bulk index insert under the lock. -/
def Collection.add_batch (c : Collection) (es : List Embedding) : Option Collection :=
  if es.isEmpty then some c
  else
    match insertRows c.rows es with
    | none => none
    | some (rows', pairs) =>
      some { rows := rows', index := c.index ++ pairs,
             indexCapacity := resizeCap c.indexCapacity (maxLabel pairs) }

/-- Model of `Collection.delete`: `DELETE FROM embeddings WHERE doc_id = ?`; the
returned flag is `cursor.rowcount > 0`.  The index is untouched (hnswlib
does not support deletion). -/
def Collection.delete (c : Collection) (docId : String) : Collection × Bool :=
  let remaining := c.rows.filter (fun r => !(r.doc_id == docId))
  ({ c with rows := remaining }, decide (remaining.length < c.rows.length))

/-- Model of `Collection.clear`: delete every row and reinitialize a fresh index. -/
def Collection.clear (_c : Collection) : Collection :=
  { rows := [], index := [], indexCapacity := 1000 }

/-! ## storage.collection: search -/

/-- Dot product of two vectors (trailing entries of the longer one are
ignored, as with numpy on equal-dimension inputs the case never arises). -/
def dotProd : List ℚ → List ℚ → ℚ
  | a :: as, b :: bs => ratAdd (ratMul a b) (dotProd as bs)
  | _, _ => 0

/-- hnswlib cosine distance `1 - ⟨a, b⟩` on unit vectors (hnswlib normalizes
every stored and query vector to unit length; the model works with already
normalized vectors). -/
def cosineDist (q v : List ℚ) : ℚ := ratSub 1 (dotProd q v)

/-- Insert an index item into a list kept sorted by ascending distance from
`q` (stable: existing items win ties). -/
def insertByDist (q : List ℚ) (p : Nat × List ℚ) :
    List (Nat × List ℚ) → List (Nat × List ℚ)
  | [] => [p]
  | x :: xs =>
    if cosineDist q p.2 < cosineDist q x.2 then p :: x :: xs
    else x :: insertByDist q p xs

/-- Sort the index items by ascending distance from `q`. -/
def sortByDist (q : List ℚ) : List (Nat × List ℚ) → List (Nat × List ℚ)
  | [] => []
  | x :: xs => insertByDist q x (sortByDist q xs)

/-- Model of `hnswlib.Index.knn_query`: the `k` nearest stored items as
`(label, distance)` pairs by ascending distance; hnswlib raises a
RuntimeError when `k` exceeds the number of stored items. -/
def knnQuery (index : List (Nat × List ℚ)) (q : List ℚ) (k : Nat) :
    Except String (List (Nat × ℚ)) :=
  if index.length < k then
    Except.error ("Cannot return the results in a contiguous 2D array. Probably ef or M is too small")
  else
    Except.ok (((sortByDist q index).take k).map (fun p => (p.1, cosineDist q p.2)))

/-- Model of `Collection.search`: empty table returns `[]`; otherwise `k` is clamped
to `count()`, the index is queried, and each returned label is resolved in
the metadata table, silently skipping labels whose row was deleted. -/
def Collection.search (c : Collection) (q : List ℚ) (k : Nat) :
    Except String (List SearchResult) :=
  if c.count = 0 then Except.ok []
  else
    match knnQuery c.index q (min k c.count) with
    | Except.error e => Except.error e
    | Except.ok nn =>
      Except.ok (nn.filterMap (fun p =>
        match c.rows.find? (fun r => r.id == p.1) with
        | some r => some ⟨r.text, r.doc_id, r.metadata, p.2, r.created_at⟩
        | none => none))

/-! ## storage.collection: get_all -/

/-- Model of `Collection.get_all(offset, limit)`: with a truthy `limit` the SQL is
`SELECT ... LIMIT ? OFFSET ?`; with `limit` `None` (or `0`, both falsy in
Python) the code issues `SELECT ... FROM embeddings OFFSET ?`, which SQLite
rejects with a syntax error because `OFFSET` requires a `LIMIT` clause. -/
def Collection.get_all (c : Collection) (offset : Nat) (limit : Option Nat) :
    Except String (List Row) :=
  if limit.getD 0 ≠ 0 then
    Except.ok ((c.rows.drop offset).take (limit.getD 0))
  else
    Except.error ("near OFFSET syntax error")

/-! ## Operation sequences on a collection -/

/-- A mutating operation on a collection. -/
inductive Op where
  | add (e : Embedding)
  | addBatch (es : List Embedding)
  | delete (docId : String)
  | clear
deriving DecidableEq

/-- Apply one operation; a failed insert (UNIQUE violation) raises in Python
after SQLite rolled the transaction back, leaving the state unchanged. -/
def applyOp (c : Collection) : Op → Collection
  | Op.add e => (c.add e).getD c
  | Op.addBatch es => (c.add_batch es).getD c
  | Op.delete d => (c.delete d).1
  | Op.clear => c.clear

/-- Run a sequence of operations from a fresh collection. -/
def runOps (ops : List Op) : Collection :=
  ops.foldl applyOp emptyCollection

/-- True when the sequence contains no `delete` operation. -/
def noDelete (ops : List Op) : Bool :=
  ops.all (fun op => match op with | Op.delete _ => false | _ => true)

/-! ## tools.finding_queue -/

/-- The `StorageTask` dataclass. -/
structure StorageTask where
  text : String
  source_url : String
  title : String
  relevance_notes : String
  finding_type : String
  author : Option String
  publication_date : Option String
deriving DecidableEq

/-- Observable worker state: the two counters, the error list, and the
sequence of successfully stored tasks in the order their writes hit the
collection. -/
structure QueueState where
  stored_count : Nat
  failed_count : Nat
  errors : List String
  stored : List StorageTask
deriving DecidableEq

/-- Whether a store attempt succeeded. -/
def storeOk (r : Except String Unit) : Bool :=
  match r with
  | Except.ok _ => true
  | Except.error _ => false

/-- One iteration of `FindingQueue._worker` on a pulled task: the store call
(whose success is decided by the external `store` collaborator, i.e.
embedding plus collection write) either bumps `stored_count` or is caught,
bumping `failed_count` and appending the error message. -/
def processTask (store : StorageTask → Except String Unit)
    (st : QueueState) (t : StorageTask) : QueueState :=
  match store t with
  | Except.ok _ =>
    { st with stored_count := st.stored_count + 1, stored := st.stored ++ [t] }
  | Except.error e =>
    { st with failed_count := st.failed_count + 1,
              errors := st.errors ++ [("Failed to store finding: " ++ e)] }

/-- The worker run bracketed by `start()` and `stop()`: the asyncio queue is
FIFO and the single consumer awaits each store before pulling the next task,
so by the time `stop()` completes (drain, sentinel, join) the worker has
processed exactly the enqueued tasks in enqueue order, one at a time. -/
def runWorker (store : StorageTask → Except String Unit)
    (tasks : List StorageTask) : QueueState :=
  tasks.foldl (processTask store) ⟨0, 0, [], []⟩

/-! ## Concrete fixtures used by the counterexamples and witnesses -/

/-- A first test embedding (unit vector along the first axis). -/
def eA : Embedding := ⟨[1, 0], "alpha text", "a", "m1", 0⟩

/-- A second test embedding (unit vector along the second axis). -/
def eB : Embedding := ⟨[0, 1], "beta text", "b", "m2", 0⟩

/-- A third test embedding. -/
def eC : Embedding := ⟨[0, 1], "gamma text", "c", "m3", 0⟩

/-- A 33-character quote consisting of the letter a. -/
def q33 : String := String.mk (List.replicate 33 'a')

/-- A 34-character single-word source: 16 copies of a, one b, 17 copies
of a.  Its indel similarity to `q33` is `66 / 67`, which lies in the
interval `[0.98, 0.99)`. -/
def w34 : String := String.mk (List.replicate 16 'a' ++ 'b' :: List.replicate 17 'a')

/-! ## Claim C2 -/

/-- Claim C2 counterexample: running add(a), add(b) assigns rowIds 1 and 2;
after delete(b), a further add(c) assigns rowId 2 again — the rowId of the
deleted record b is reused, because `id INTEGER PRIMARY KEY` without
`AUTOINCREMENT` assigns max-plus-one rather than a persistent counter. -/
theorem rowid_reuse_after_delete_cex :
    ((runOps [Op.add eA, Op.add eB]).rows.map (fun r => (r.doc_id, r.id))
        = [("a", 1), ("b", 2)])
    ∧ ((runOps [Op.add eA, Op.add eB, Op.delete ("b"), Op.add eC]).rows.map
        (fun r => (r.doc_id, r.id)) = [("a", 1), ("c", 2)]) := by
  decide

/-- Any member of a list of naturals is bounded by its max fold. -/
theorem mem_le_foldr_max (n : Nat) (l : List Nat) (h : n ∈ l) :
    n ≤ l.foldr max 0 := by
  induction l with
  | nil => cases h
  | cons x xs ih =>
    rcases List.mem_cons.mp h with h1 | h1
    · simp [h1, le_max_iff]
    · simp [le_max_iff, ih h1]

/-- Every rowid in the table is strictly below the next assigned rowid. -/
theorem row_id_lt_nextRowId (rows : List Row) (r : Row) (hr : r ∈ rows) :
    r.id < nextRowId rows := by
  have h := mem_le_foldr_max r.id (rows.map Row.id) (List.mem_map_of_mem Row.id hr)
  unfold nextRowId
  omega

/-- Claim C2 (amended): a successful `add` appends one row whose rowId is
strictly greater than the rowId of every record currently in the table —
so a live rowId is never reassigned; only rowIds of already deleted records
can recur. -/
theorem add_assigns_fresh_rowid (c : Collection) (e : Embedding)
    (c' : Collection) (h : c.add e = some c') :
    ∃ newRow : Row, c'.rows = c.rows ++ [newRow]
      ∧ ∀ r ∈ c.rows, r.id < newRow.id := by
  unfold Collection.add at h
  by_cases hdup : (c.rows.any fun r => r.doc_id == e.doc_id) = true
  · rw [if_pos hdup] at h; cases h
  · rw [if_neg hdup] at h
    have h2 := Option.some.inj h
    subst h2
    exact ⟨⟨nextRowId c.rows, e.doc_id, e.text, e.metadata, e.created_at⟩, rfl,
      fun r hr => row_id_lt_nextRowId c.rows r hr⟩

/-- Witness for the amended claim C2 at a concrete state. -/
theorem add_assigns_fresh_rowid_witness :
    (runOps [Op.add eA]).add eB = some (runOps [Op.add eA, Op.add eB])
    ∧ ∃ newRow : Row, (runOps [Op.add eA, Op.add eB]).rows
        = (runOps [Op.add eA]).rows ++ [newRow]
      ∧ ∀ r ∈ (runOps [Op.add eA]).rows, r.id < newRow.id :=
  ⟨by decide, add_assigns_fresh_rowid (runOps [Op.add eA]) eB _ (by decide)⟩

/-! ## Claim C4 -/

/-- Claim C4 counterexample: validating the quote against the spec scenario
source does yield valid with ratio 1, but the matched text is the quote
itself, which is not even a substring of the source — not a span of the
source with original casing and spacing (the window recovery fails because
normalization keeps the period attached to the final source word). -/
theorem exact_match_fallback_cex :
    (validate_direct_quote ("the sky is blue")
        ("Scientists agree the Sky is   blue.") (mkRat 9 10)).matched_text
      = some ("the sky is blue")
    ∧ containsSub ("the sky is blue") ("Scientists agree the Sky is   blue.")
      = false := by
  decide

/-- Claim C4 (amended): the exact-match scenario returns valid with ratio 1,
but the matched text is the fallback — the quote text itself — because no
window of source words normalizes exactly to the quote. -/
theorem sky_is_blue_validation_eval :
    validate_direct_quote ("the sky is blue")
        ("Scientists agree the Sky is   blue.") (mkRat 9 10)
      = { valid := true, matched_text := some ("the sky is blue"),
          match_ratio := 1, error := none } := by
  decide

/-! ## Claim C5 counterexample -/

/-- Claim C5 counterexample: with threshold `0.99`, a window whose ratio is
`66 / 67 ≈ 0.985` triggers the early-termination branch (ratio at least
`0.98`), so the validator returns valid even though the best ratio found is
below the requested threshold — the valid-iff-ratio-above-threshold claim
fails for thresholds above `0.98`. -/
theorem fuzzy_early_exit_cex :
    truthyOpt (find_exact_match q33 w34) = false
    ∧ (validate_direct_quote q33 w34 (mkRat 99 100)).valid = true
    ∧ (validate_direct_quote q33 w34 (mkRat 99 100)).match_ratio < mkRat 99 100
    ∧ (find_fuzzy_match q33 w34 (mkRat 99 100)).2 < mkRat 99 100 := by
  decide

/-! ## Claim C6 -/

/-- Claim C6 (code bug): `get_all` with `limit=None` (including the default
call `get_all()`) builds `SELECT ... FROM embeddings OFFSET ?`, which SQLite
rejects: `OFFSET` is only valid after a `LIMIT` clause, so the call raises
an OperationalError instead of returning the remaining rows. -/
theorem get_all_without_limit_errors (c : Collection) (offset : Nat) :
    c.get_all offset none = Except.error ("near OFFSET syntax error") := rfl

/-! ## Claim C7 -/

/-- Counter bookkeeping of the worker fold, generalized over the initial
state. -/
theorem foldl_processTask_counts (store : StorageTask → Except String Unit)
    (tasks : List StorageTask) :
    ∀ st : QueueState,
      (tasks.foldl (processTask store) st).stored_count
        + (tasks.foldl (processTask store) st).failed_count
        = st.stored_count + st.failed_count + tasks.length := by
  induction tasks with
  | nil => intro st; simp
  | cons t ts ih =>
    intro st
    simp only [List.foldl_cons, List.length_cons]
    rw [ih]
    cases h : store t <;> simp [processTask, h] <;> omega

/-- Claim C7: after `stop()` following the processing of the enqueued
tasks, every task has bumped exactly one of the two counters, so
`stored_count + failed_count` equals the number of enqueued tasks, whatever
the per-task success oracle. -/
theorem queue_counts_sum_to_enqueued (store : StorageTask → Except String Unit)
    (tasks : List StorageTask) :
    (runWorker store tasks).stored_count + (runWorker store tasks).failed_count
      = tasks.length := by
  have h := foldl_processTask_counts store tasks ⟨0, 0, [], []⟩
  simpa [runWorker] using h

/-! ## Claim C8 -/

/-- Stored-order bookkeeping of the worker fold, generalized over the
initial state. -/
theorem foldl_processTask_stored (store : StorageTask → Except String Unit)
    (tasks : List StorageTask) :
    ∀ st : QueueState,
      (tasks.foldl (processTask store) st).stored
        = st.stored ++ tasks.filter (fun t => storeOk (store t)) := by
  induction tasks with
  | nil => intro st; simp
  | cons t ts ih =>
    intro st
    simp only [List.foldl_cons, List.filter_cons]
    cases h : store t <;>
      simp [processTask, h, storeOk, ih, List.append_assoc]

/-- Claim C8: the single consumer pulls tasks in FIFO order and performs
their storage side effects one at a time, so the sequence of successful
insertions into the collection is exactly the enqueue sequence restricted to
the tasks that stored successfully — if A is enqueued before B and both
store, the insertion of A precedes the insertion of B. -/
theorem queue_fifo_order (store : StorageTask → Except String Unit)
    (tasks : List StorageTask) :
    (runWorker store tasks).stored
      = tasks.filter (fun t => storeOk (store t)) := by
  have h := foldl_processTask_stored store tasks ⟨0, 0, [], []⟩
  simpa [runWorker] using h

/-! ## Claim C3 counterexample -/

/-- Claim C3 counterexample: add a and b, then delete a.  `count()` is 1,
but `search` with the query vector of a and `k = 5` returns no results at
all: the clamped `k = 1` nearest neighbour is the orphaned vector of a,
whose metadata row is gone, so it is skipped. -/
theorem search_undercount_after_delete_cex :
    (runOps [Op.add eA, Op.add eB, Op.delete ("a")]).count = 1
    ∧ (runOps [Op.add eA, Op.add eB, Op.delete ("a")]).search [1, 0] 5
        = Except.ok [] := by
  exact ⟨by decide, rfl⟩

/-! ## Claim C9 -/

/-- Dropping the rows matched by `p` shortens the list exactly when some row
matches `p`. -/
theorem filter_not_length_lt_iff (p : Row → Bool) (l : List Row) :
    ((l.filter (fun r => !(p r))).length < l.length) ↔ l.any p = true := by
  induction l with
  | nil => simp
  | cons a t ih =>
    have hle := List.length_filter_le (fun r => !(p r)) t
    cases h : p a
    · simp [List.filter_cons, h, ih]
    · simp [List.filter_cons, h]
      omega

/-- Claim C9: `delete(docId)` removes only the matching metadata row — the
index is untouched — and returns whether a row was removed; the surviving
rows carry other ids, and the removed rows are exactly the drop in
`count()`.  It is idempotent: deleting the same id again returns false and
leaves the state unchanged. -/
theorem delete_idempotent (c : Collection) (docId : String) :
    ((c.delete docId).2 = true ↔ (c.rows.any (fun r => r.doc_id == docId)) = true)
    ∧ (c.delete docId).1.index = c.index
    ∧ ((c.delete docId).1.rows.all (fun r => !(r.doc_id == docId))) = true
    ∧ (c.delete docId).1.count
        + (c.rows.filter (fun r => r.doc_id == docId)).length = c.count
    ∧ ((c.delete docId).1.delete docId).2 = false
    ∧ ((c.delete docId).1.delete docId).1 = (c.delete docId).1 := by
  unfold Collection.delete Collection.count
  dsimp only
  refine ⟨?_, rfl, ?_, ?_, ?_, ?_⟩
  · rw [decide_eq_true_iff]
    exact filter_not_length_lt_iff _ c.rows
  · simp only [List.all_eq_true]
    exact fun r hr => (List.mem_filter.mp hr).2
  · have h : c.rows.length
        = (c.rows.filter (fun r => r.doc_id == docId)).length
          + (c.rows.filter (fun r => !(r.doc_id == docId))).length :=
      List.length_eq_length_filter_add _
    omega
  · simp [List.filter_filter]
  · simp [List.filter_filter]

/-! ## Claim C10 -/

/-- The empty needle occurs in every haystack (Python: `"" in s` is true). -/
theorem isSubstr_nil_needle (l : List Char) : isSubstr [] l = true := by
  cases l <;> simp [isSubstr, isPrefixList]

/-- Normalizing the empty string gives the empty string. -/
theorem normalize_text_empty : normalize_text ("") = "" := rfl

/-- With a zero-length word window the scan returns the empty string for any
source word list (in Python every one of the `len(words) + 1` windows is the
empty join, and the first one already matches the empty normalized
quote). -/
theorem scanWindows_zero_len (ow : List String) :
    scanWindows 0 ("") ow = some ("") := by
  cases ow with
  | nil => rfl
  | cons w t => simp [scanWindows, joinWords, normalize_text_empty]

/-- For a quote that normalizes to the empty string, the exact phase
recovers the empty span. -/
theorem find_exact_empty (quote source_text : String)
    (h : normalize_text quote = "") :
    find_exact_match quote source_text = some ("") := by
  simp only [find_exact_match, h]
  rw [show splitWs ("") = ([] : List String) from rfl]
  rw [show ([] : List String).length = 0 from rfl]
  rw [scanWindows_zero_len]
  have hc : containsSub ("") (normalize_text source_text) = true :=
    isSubstr_nil_needle _
  rw [hc]
  simp

/-- For a quote that normalizes to the empty string, the fuzzy phase finds
nothing and reports ratio 0. -/
theorem find_fuzzy_empty (quote source_text : String) (minr : ℚ)
    (h : normalize_text quote = "") :
    find_fuzzy_match quote source_text minr = (none, 0) := by
  unfold find_fuzzy_match
  rw [h]
  rfl

/-- Claim C10: validating an empty or whitespace-only quote (one whose
normalization is empty) against any source returns invalid with ratio 0:
the exact phase's recovered span is the empty string, which is falsy and
discarded, and the fuzzy phase returns no match for a zero-word quote. -/
theorem empty_quote_invalid (quote source_text : String) (minr : ℚ)
    (h : normalize_text quote = "") :
    (validate_direct_quote quote source_text minr).valid = false
    ∧ (validate_direct_quote quote source_text minr).match_ratio = 0 := by
  unfold validate_direct_quote
  by_cases hs : (trimChars source_text.toList).length < 10
  · rw [if_pos hs]
    exact ⟨rfl, rfl⟩
  · rw [if_neg hs]
    simp only [find_exact_empty quote source_text h,
      find_fuzzy_empty quote source_text minr h, truthyOpt]
    simp

/-- Witness for claim C10 at a concrete whitespace-only quote. -/
theorem empty_quote_invalid_witness :
    normalize_text ("   ") = ""
    ∧ ((validate_direct_quote ("   ") ("plenty of readable content") (mkRat 9 10)).valid = false
      ∧ (validate_direct_quote ("   ") ("plenty of readable content") (mkRat 9 10)).match_ratio = 0) :=
  ⟨by decide,
   empty_quote_invalid ("   ") ("plenty of readable content") (mkRat 9 10) (by decide)⟩

/-! ## Reachability invariants of a collection -/

/-- Lift a step-preserved invariant to whole operation sequences. -/
theorem foldl_applyOp_inv (P : Collection → Prop)
    (hstep : ∀ c op, P c → P (applyOp c op)) :
    ∀ (ops : List Op) (c : Collection), P c → P (ops.foldl applyOp c) := by
  intro ops
  induction ops with
  | nil => exact fun c hc => hc
  | cons op rest ih => exact fun c hc => ih _ (hstep c op hc)

/-- Lift an invariant preserved by every non-delete step to delete-free
operation sequences. -/
theorem foldl_applyOp_inv_noDelete (P : Collection → Prop)
    (hstep : ∀ c op,
      (match op with | Op.delete _ => false | _ => true) = true →
      P c → P (applyOp c op)) :
    ∀ (ops : List Op), noDelete ops = true →
      ∀ c : Collection, P c → P (ops.foldl applyOp c) := by
  intro ops
  induction ops with
  | nil => exact fun _ c hc => hc
  | cons op rest ih =>
    intro hnd c hc
    rw [noDelete, List.all_cons, Bool.and_eq_true] at hnd
    exact ih hnd.2 _ (hstep c op hnd.1 hc)

/-- Either branch a single `add` can take. -/
theorem add_cases (c : Collection) (e : Embedding) :
    c.add e = none
    ∨ c.add e = some
        { rows := c.rows
            ++ [⟨nextRowId c.rows, e.doc_id, e.text, e.metadata, e.created_at⟩],
          index := c.index ++ [(nextRowId c.rows, e.vector)],
          indexCapacity := resizeCap c.indexCapacity (nextRowId c.rows) } := by
  unfold Collection.add
  by_cases hdup : (c.rows.any fun r => r.doc_id == e.doc_id) = true
  · rw [if_pos hdup]; exact Or.inl rfl
  · rw [if_neg hdup]; exact Or.inr rfl

/-- Combined bookkeeping of the batch metadata-insert loop: existing rows
survive, lengths add up, every final row is an old row or is labelled in the
collected pairs, and every collected pair is labelled by some final row. -/
theorem insertRows_spec (es : List Embedding) :
    ∀ (rows rows' : List Row) (pairs : List (Nat × List ℚ)),
      insertRows rows es = some (rows', pairs) →
      (∀ r ∈ rows, r ∈ rows')
      ∧ rows'.length = rows.length + pairs.length
      ∧ (∀ r ∈ rows', r ∈ rows ∨ ∃ v, (r.id, v) ∈ pairs)
      ∧ (∀ p ∈ pairs, ∃ r, r ∈ rows' ∧ r.id = p.1) := by
  induction es with
  | nil =>
    intro rows rows' pairs h
    unfold insertRows at h
    obtain ⟨h1, h2⟩ := Prod.mk.injEq _ _ _ _ ▸ Option.some.inj h
    subst h1; subst h2
    exact ⟨fun r hr => hr, rfl, fun r hr => Or.inl hr, by simp⟩
  | cons e es ih =>
    intro rows rows' pairs h
    unfold insertRows at h
    by_cases hdup : (rows.any fun r0 => r0.doc_id == e.doc_id) = true
    · rw [if_pos hdup] at h; cases h
    · rw [if_neg hdup] at h
      dsimp only at h
      cases hrec : insertRows
          (rows ++ [⟨nextRowId rows, e.doc_id, e.text, e.metadata, e.created_at⟩]) es with
      | none => rw [hrec] at h; cases h
      | some pr =>
        obtain ⟨rows2, pairs2⟩ := pr
        rw [hrec] at h
        obtain ⟨h1, h2⟩ := Prod.mk.injEq _ _ _ _ ▸ Option.some.inj h
        subst h1; subst h2
        obtain ⟨s1, s2, s3, s4⟩ := ih _ _ _ hrec
        refine ⟨?_, ?_, ?_, ?_⟩
        · exact fun r hr => s1 r (List.mem_append_left _ hr)
        · rw [s2]; simp [List.length_append]; omega
        · intro r hr
          rcases s3 r hr with h3 | ⟨v, hv⟩
          · rcases List.mem_append.mp h3 with h4 | h4
            · exact Or.inl h4
            · rcases List.mem_singleton.mp h4 with rfl
              exact Or.inr ⟨e.vector, List.mem_cons_self _ _⟩
          · exact Or.inr ⟨v, List.mem_cons_of_mem _ hv⟩
        · intro p hp
          rcases List.mem_cons.mp hp with rfl | hp2
          · refine ⟨⟨nextRowId rows, e.doc_id, e.text, e.metadata, e.created_at⟩, ?_, rfl⟩
            exact s1 _ (List.mem_append_right _ (List.mem_singleton_self _))
          · exact s4 p hp2

/-- The possible outcomes of `add_batch`. -/
theorem add_batch_cases (c : Collection) (es : List Embedding) :
    c.add_batch es = some c ∨ c.add_batch es = none
    ∨ ∃ rows' pairs, insertRows c.rows es = some (rows', pairs)
        ∧ c.add_batch es = some
            { rows := rows', index := c.index ++ pairs,
              indexCapacity := resizeCap c.indexCapacity (maxLabel pairs) } := by
  unfold Collection.add_batch
  by_cases hemp : es.isEmpty = true
  · rw [if_pos hemp]; exact Or.inl rfl
  · rw [if_neg hemp]
    cases hrec : insertRows c.rows es with
    | none => exact Or.inr (Or.inl rfl)
    | some pr =>
      obtain ⟨rows', pairs⟩ := pr
      exact Or.inr (Or.inr ⟨rows', pairs, rfl, rfl⟩)

/-- The C1 invariant: every metadata row is labelled in the ANN index. -/
def IndexCoversRows (c : Collection) : Prop :=
  ∀ r ∈ c.rows, ∃ v, (r.id, v) ∈ c.index

/-- Every operation preserves the C1 invariant. -/
theorem applyOp_indexCoversRows (c : Collection) (op : Op)
    (hc : IndexCoversRows c) : IndexCoversRows (applyOp c op) := by
  cases op with
  | add e =>
    show IndexCoversRows ((c.add e).getD c)
    rcases add_cases c e with h | h <;> rw [h]
    · exact hc
    · intro r hr
      rcases List.mem_append.mp hr with h1 | h1
      · obtain ⟨v, hv⟩ := hc r h1
        exact ⟨v, List.mem_append_left _ hv⟩
      · rcases List.mem_singleton.mp h1 with rfl
        exact ⟨e.vector, List.mem_append_right _ (List.mem_singleton_self _)⟩
  | addBatch es =>
    show IndexCoversRows ((c.add_batch es).getD c)
    rcases add_batch_cases c es with h | h | ⟨rows', pairs, hins, h⟩ <;> rw [h]
    · exact hc
    · exact hc
    · intro r hr
      obtain ⟨_, _, s3, _⟩ := insertRows_spec es _ _ _ hins
      rcases s3 r hr with h1 | ⟨v, hv⟩
      · obtain ⟨v, hv⟩ := hc r h1
        exact ⟨v, List.mem_append_left _ hv⟩
      · exact ⟨v, List.mem_append_right _ hv⟩
  | delete d =>
    intro r hr
    exact hc r (List.mem_filter.mp hr).1
  | clear =>
    intro r hr
    cases hr

/-- Claim C1: for every sequence of add, addBatch, delete and clear
operations, every row present in the metadata table has a corresponding
vector in the ANN index under its rowId (each add writes the metadata row
and then the vector inside the same critical section, and a failed insert
rolls back before the index is touched, so the index can never lack a live
row's vector). -/
theorem collection_rows_have_index_vectors (ops : List Op) :
    ∀ r ∈ (runOps ops).rows, ∃ v, (r.id, v) ∈ (runOps ops).index := by
  exact foldl_applyOp_inv IndexCoversRows applyOp_indexCoversRows ops
    emptyCollection (fun r hr => absurd hr (List.not_mem_nil r))

/-- Witness for claim C1 at a concrete state and row. -/
theorem collection_rows_have_index_vectors_witness :
    (⟨1, "a", "alpha text", "m1", 0⟩ : Row) ∈ (runOps [Op.add eA]).rows
    ∧ ∃ v, ((1 : Nat), v) ∈ (runOps [Op.add eA]).index :=
  ⟨by decide,
   collection_rows_have_index_vectors [Op.add eA]
     ⟨1, "a", "alpha text", "m1", 0⟩ (by decide)⟩

/-! ## Claim C3 (amended): search clamping -/

/-- The table never outgrows the index (deletes only shrink the table and
every insert also inserts into the index), so `knn_query` with the clamped
`k` never raises. -/
def RowsLeIndex (c : Collection) : Prop :=
  c.rows.length ≤ c.index.length

/-- With no deletions there are no orphans: every index label belongs to a
live metadata row. -/
def RowsCoverIndex (c : Collection) : Prop :=
  ∀ p ∈ c.index, ∃ r ∈ c.rows, r.id = p.1

/-- Every operation preserves `RowsLeIndex`. -/
theorem applyOp_rowsLeIndex (c : Collection) (op : Op)
    (hc : RowsLeIndex c) : RowsLeIndex (applyOp c op) := by
  cases op with
  | add e =>
    show RowsLeIndex ((c.add e).getD c)
    rcases add_cases c e with h | h <;> rw [h]
    · exact hc
    · show (c.rows ++ _).length ≤ (c.index ++ _).length
      rw [List.length_append, List.length_append]
      unfold RowsLeIndex at hc
      simp
      omega
  | addBatch es =>
    show RowsLeIndex ((c.add_batch es).getD c)
    rcases add_batch_cases c es with h | h | ⟨rows', pairs, hins, h⟩ <;> rw [h]
    · exact hc
    · exact hc
    · obtain ⟨_, s2, _, _⟩ := insertRows_spec es _ _ _ hins
      show rows'.length ≤ (c.index ++ pairs).length
      rw [s2, List.length_append]
      unfold RowsLeIndex at hc
      omega
  | delete d =>
    show (c.rows.filter _).length ≤ c.index.length
    exact le_trans (List.length_filter_le _ _) hc
  | clear =>
    exact Nat.le_refl 0

/-- Every non-delete operation preserves `RowsCoverIndex`. -/
theorem applyOp_rowsCoverIndex (c : Collection) (op : Op)
    (hnd : (match op with | Op.delete _ => false | _ => true) = true)
    (hc : RowsCoverIndex c) : RowsCoverIndex (applyOp c op) := by
  cases op with
  | add e =>
    show RowsCoverIndex ((c.add e).getD c)
    rcases add_cases c e with h | h <;> rw [h]
    · exact hc
    · intro p hp
      rcases List.mem_append.mp hp with h1 | h1
      · obtain ⟨r, hr, hid⟩ := hc p h1
        exact ⟨r, List.mem_append_left _ hr, hid⟩
      · rcases List.mem_singleton.mp h1 with rfl
        exact ⟨⟨nextRowId c.rows, e.doc_id, e.text, e.metadata, e.created_at⟩,
          List.mem_append_right _ (List.mem_singleton_self _), rfl⟩
  | addBatch es =>
    show RowsCoverIndex ((c.add_batch es).getD c)
    rcases add_batch_cases c es with h | h | ⟨rows', pairs, hins, h⟩ <;> rw [h]
    · exact hc
    · exact hc
    · obtain ⟨s1, _, _, s4⟩ := insertRows_spec es _ _ _ hins
      intro p hp
      rcases List.mem_append.mp hp with h1 | h1
      · obtain ⟨r, hr, hid⟩ := hc p h1
        exact ⟨r, s1 r hr, hid⟩
      · obtain ⟨r, hr, hid⟩ := s4 p h1
        exact ⟨r, hr, hid⟩
  | delete d => cases hnd
  | clear =>
    intro p hp
    cases hp

/-- Invariant: `RowsLeIndex` holds in every reachable state. -/
theorem runOps_rowsLeIndex (ops : List Op) : RowsLeIndex (runOps ops) :=
  foldl_applyOp_inv RowsLeIndex applyOp_rowsLeIndex ops emptyCollection
    (Nat.le_refl 0)

/-- Invariant: `RowsCoverIndex` holds in every delete-free reachable state. -/
theorem runOps_rowsCoverIndex (ops : List Op) (hnd : noDelete ops = true) :
    RowsCoverIndex (runOps ops) :=
  foldl_applyOp_inv_noDelete RowsCoverIndex applyOp_rowsCoverIndex ops hnd
    emptyCollection (fun p hp => absurd hp (List.not_mem_nil p))

/-- Membership is preserved by the sorted insertion. -/
theorem insertByDist_mem (q : List ℚ) (p x : Nat × List ℚ)
    (l : List (Nat × List ℚ)) (h : x ∈ insertByDist q p l) : x = p ∨ x ∈ l := by
  induction l with
  | nil => simpa [insertByDist] using h
  | cons y ys ih =>
    unfold insertByDist at h
    by_cases hlt : cosineDist q p.2 < cosineDist q y.2
    · rw [if_pos hlt] at h
      rcases List.mem_cons.mp h with h1 | h1
      · exact Or.inl h1
      · exact Or.inr h1
    · rw [if_neg hlt] at h
      rcases List.mem_cons.mp h with h1 | h1
      · exact Or.inr (h1 ▸ List.mem_cons_self y ys)
      · rcases ih h1 with h2 | h2
        · exact Or.inl h2
        · exact Or.inr (List.mem_cons_of_mem y h2)

/-- Sorted insertion adds exactly one item. -/
theorem insertByDist_length (q : List ℚ) (p : Nat × List ℚ)
    (l : List (Nat × List ℚ)) :
    (insertByDist q p l).length = l.length + 1 := by
  induction l with
  | nil => rfl
  | cons y ys ih =>
    unfold insertByDist
    by_cases hlt : cosineDist q p.2 < cosineDist q y.2
    · rw [if_pos hlt]; rfl
    · rw [if_neg hlt]
      simp [ih]

/-- Sorting by distance permutes: membership is preserved. -/
theorem sortByDist_mem (q : List ℚ) (x : Nat × List ℚ)
    (l : List (Nat × List ℚ)) (h : x ∈ sortByDist q l) : x ∈ l := by
  induction l with
  | nil => simp [sortByDist] at h
  | cons y ys ih =>
    unfold sortByDist at h
    rcases insertByDist_mem q y x _ h with h1 | h1
    · exact h1 ▸ List.mem_cons_self y ys
    · exact List.mem_cons_of_mem y (ih h1)

/-- Sorting by distance preserves length. -/
theorem sortByDist_length (q : List ℚ) (l : List (Nat × List ℚ)) :
    (sortByDist q l).length = l.length := by
  induction l with
  | nil => rfl
  | cons y ys ih =>
    unfold sortByDist
    rw [insertByDist_length, ih]
    rfl

/-- When `f` succeeds on every element, `filterMap` keeps them all. -/
theorem filterMap_length_of_isSome {α β : Type} (f : α → Option β)
    (l : List α) (h : ∀ x ∈ l, (f x).isSome = true) :
    (l.filterMap f).length = l.length := by
  induction l with
  | nil => rfl
  | cons a t ih =>
    rw [List.filterMap_cons]
    cases hf : f a with
    | none =>
      exact absurd (h a (List.mem_cons_self a t)) (by simp [hf])
    | some b =>
      simp only [List.length_cons]
      rw [ih (fun x hx => h x (List.mem_cons_of_mem a hx))]

/-- Search on any state satisfying the two structural invariants: it never
raises, returns at most the clamped count, returns nothing on an empty
table, and returns exactly `min k count` results when the index holds no
orphan labels. -/
theorem search_ok (c : Collection) (q : List ℚ) (k : Nat)
    (hlen : RowsLeIndex c) :
    ∃ res, c.search q k = Except.ok res
      ∧ res.length ≤ min k c.count
      ∧ (c.count = 0 → res = [])
      ∧ (RowsCoverIndex c → res.length = min k c.count) := by
  unfold Collection.search
  by_cases hc : c.count = 0
  · rw [if_pos hc]
    exact ⟨[], rfl, by simp [hc], fun _ => rfl, fun _ => by simp [hc]⟩
  · rw [if_neg hc]
    unfold knnQuery
    have hk : ¬ (c.index.length < min k c.count) := by
      unfold Collection.count RowsLeIndex at *
      have h1 := Nat.min_le_right k c.rows.length
      omega
    rw [if_neg hk]
    refine ⟨_, rfl, ?_, fun h => absurd h hc, ?_⟩
    · calc (List.filterMap _ _).length
          ≤ (((sortByDist q c.index).take (min k c.count)).map
              (fun p => (p.1, cosineDist q p.2))).length :=
            List.length_filterMap_le _ _
        _ = min k c.count := by
            rw [List.length_map, List.length_take, sortByDist_length]
            unfold Collection.count RowsLeIndex at *
            omega
    · intro hcov
      rw [filterMap_length_of_isSome]
      · rw [List.length_map, List.length_take, sortByDist_length]
        unfold Collection.count RowsLeIndex at *
        omega
      · intro x hx
        obtain ⟨p, hp, rfl⟩ := List.mem_map.mp hx
        have hpidx : p ∈ c.index :=
          sortByDist_mem q p c.index (List.take_subset _ _ hp)
        obtain ⟨r, hr, hid⟩ := hcov p hpidx
        have hfind : (c.rows.find? (fun r0 => r0.id == p.1)).isSome := by
          rw [List.find?_isSome]
          exact ⟨r, hr, by simp [hid]⟩
        cases hf : c.rows.find? (fun r0 => r0.id == p.1) with
        | none => rw [hf] at hfind; cases hfind
        | some r0 => simp [hf]

/-- Claim C3 (amended): for every delete-free state, `search(q, k)` never
errors and returns exactly `min k count()` results — so `k > count()` gives
exactly `count()` results and an empty collection gives `[]`.  (After a
delete, orphaned index labels are skipped and the result can be shorter;
see the counterexample.) -/
theorem search_clamps_k_without_deletes (ops : List Op) (q : List ℚ)
    (k : Nat) (hnd : noDelete ops = true) :
    ∃ res, (runOps ops).search q k = Except.ok res
      ∧ res.length = min k (runOps ops).count
      ∧ ((runOps ops).count = 0 → res = []) := by
  obtain ⟨res, hok, _, hemp, hcov⟩ :=
    search_ok (runOps ops) q k (runOps_rowsLeIndex ops)
  exact ⟨res, hok, hcov (runOps_rowsCoverIndex ops hnd), hemp⟩

/-- Witness for the amended claim C3 at a concrete delete-free state with
`k` larger than the count. -/
theorem search_clamps_k_without_deletes_witness :
    noDelete [Op.add eA, Op.add eB] = true
    ∧ ∃ res, (runOps [Op.add eA, Op.add eB]).search [1, 0] 5 = Except.ok res
      ∧ res.length = min 5 (runOps [Op.add eA, Op.add eB]).count
      ∧ ((runOps [Op.add eA, Op.add eB]).count = 0 → res = []) :=
  ⟨by decide,
   search_clamps_k_without_deletes [Op.add eA, Op.add eB] [1, 0] 5 (by decide)⟩

/-! ## Claim C5 (amended): fuzzy threshold behaviour -/

/-- Words produced by the splitter are never empty. -/
theorem splitWsAux_words_ne (cs : List Char) :
    ∀ (acc : List Char) (w : String), w ∈ splitWsAux cs acc → w.length ≠ 0 := by
  induction cs with
  | nil =>
    intro acc w hw
    unfold splitWsAux at hw
    by_cases hacc : acc.isEmpty = true
    · rw [if_pos hacc] at hw; cases hw
    · rw [if_neg hacc] at hw
      rcases List.mem_singleton.mp hw with rfl
      show acc.reverse.length ≠ 0
      rw [List.length_reverse]
      intro hlen
      exact hacc (by simp [List.isEmpty_iff, List.length_eq_zero.mp hlen])
  | cons c cs ih =>
    intro acc w hw
    unfold splitWsAux at hw
    by_cases hc : c.isWhitespace = true
    · rw [if_pos hc] at hw
      by_cases hacc : acc.isEmpty = true
      · rw [if_pos hacc] at hw
        exact ih [] w hw
      · rw [if_neg hacc] at hw
        rcases List.mem_cons.mp hw with rfl | hw2
        · show acc.reverse.length ≠ 0
          rw [List.length_reverse]
          intro hlen
          exact hacc (by simp [List.isEmpty_iff, List.length_eq_zero.mp hlen])
        · exact ih [] w hw2
    · rw [if_neg hc] at hw
      exact ih (c :: acc) w hw

/-- Every word of a whitespace split is nonempty. -/
theorem splitWs_words_ne (s : String) :
    ∀ w ∈ splitWs s, w.length ≠ 0 :=
  fun w hw => splitWsAux_words_ne s.toList [] w hw

/-- Joining a nonempty in-range window of nonempty words is nonempty. -/
theorem joinWords_take_drop_ne (l : List String)
    (hwords : ∀ w ∈ l, w.length ≠ 0) (s e : Nat) (hse : s < e)
    (hel : e ≤ l.length) :
    (joinWords ((l.drop s).take (e - s))).length ≠ 0 := by
  have h1 : l.drop s ≠ [] := by
    intro hnil
    have := List.length_drop s l
    rw [hnil] at this
    simp at this
    omega
  obtain ⟨w, t, hwt⟩ := List.exists_cons_of_ne_nil h1
  have hwl : w ∈ l := List.drop_subset s l (hwt ▸ List.mem_cons_self w t)
  have hes : e - s = (e - s - 1) + 1 := by omega
  rw [hwt, hes, List.take_succ_cons]
  cases t.take (e - s - 1) with
  | nil =>
    exact hwords w hwl
  | cons x xs =>
    show ((w ++ " ") ++ joinWords (x :: xs)).length ≠ 0
    rw [String.length_append, String.length_append]
    have := hwords w hwl
    omega

/-- The structural invariant carried through the position scan: the best
span is either still the initial empty one (ratio 0) or a real in-range
window; an early exit additionally certifies a ratio of at least `0.98`. -/
theorem scanPosAux_good (nq : String) (swn : List String) (ws : Nat)
    (hws : 1 ≤ ws) :
    ∀ (fuel i : Nat) (st : FuzzyState),
      (st.best_ratio = 0 ∨ (st.best_start < st.best_end ∧ st.best_end ≤ swn.length)) →
      fuel ≤ swn.length + 1 - (i + ws) →
      (∀ st', scanPosAux nq swn ws i fuel st = Sum.inl st' →
        st'.best_ratio = 0
        ∨ (st'.best_start < st'.best_end ∧ st'.best_end ≤ swn.length))
      ∧ (∀ st', scanPosAux nq swn ws i fuel st = Sum.inr st' →
        (st'.best_start < st'.best_end ∧ st'.best_end ≤ swn.length)
        ∧ mkRat 98 100 ≤ st'.best_ratio) := by
  intro fuel
  induction fuel with
  | zero =>
    intro i st hst _
    constructor
    · intro st' h
      unfold scanPosAux at h
      exact (Sum.inl.inj h) ▸ hst
    · intro st' h
      unfold scanPosAux at h
      cases h
  | succ fuel ih =>
    intro i st hst hb
    have hiws : i + ws ≤ swn.length := by omega
    constructor
    · intro st' h
      unfold scanPosAux at h
      dsimp only at h
      by_cases h1 : st.best_ratio < fuzz_ratio nq (joinWords ((swn.drop i).take ws))
      · rw [if_pos h1] at h
        by_cases h2 : mkRat 98 100 ≤ fuzz_ratio nq (joinWords ((swn.drop i).take ws))
        · rw [if_pos h2] at h; cases h
        · rw [if_neg h2] at h
          exact (ih (i + 1) ⟨_, i, i + ws⟩
            (Or.inr ⟨show i < i + ws by omega, show i + ws ≤ swn.length by omega⟩)
            (by omega)).1 st' h
      · rw [if_neg h1] at h
        exact (ih (i + 1) st hst (by omega)).1 st' h
    · intro st' h
      unfold scanPosAux at h
      dsimp only at h
      by_cases h1 : st.best_ratio < fuzz_ratio nq (joinWords ((swn.drop i).take ws))
      · rw [if_pos h1] at h
        by_cases h2 : mkRat 98 100 ≤ fuzz_ratio nq (joinWords ((swn.drop i).take ws))
        · rw [if_pos h2] at h
          have h3 := Sum.inr.inj h
          subst h3
          exact ⟨⟨show i < i + ws by omega, show i + ws ≤ swn.length by omega⟩, h2⟩
        · rw [if_neg h2] at h
          exact (ih (i + 1) ⟨_, i, i + ws⟩
            (Or.inr ⟨show i < i + ws by omega, show i + ws ≤ swn.length by omega⟩)
            (by omega)).2 st' h
      · rw [if_neg h1] at h
        exact (ih (i + 1) st hst (by omega)).2 st' h

/-- The invariant carried through the window-size loop. -/
theorem scanAllSizes_good (nq : String) (swn : List String) :
    ∀ (sizes : List Nat), (∀ ws ∈ sizes, 1 ≤ ws) →
      ∀ st : FuzzyState,
      (st.best_ratio = 0 ∨ (st.best_start < st.best_end ∧ st.best_end ≤ swn.length)) →
      (∀ st', scanAllSizes nq swn sizes st = Sum.inl st' →
        st'.best_ratio = 0
        ∨ (st'.best_start < st'.best_end ∧ st'.best_end ≤ swn.length))
      ∧ (∀ st', scanAllSizes nq swn sizes st = Sum.inr st' →
        (st'.best_start < st'.best_end ∧ st'.best_end ≤ swn.length)
        ∧ mkRat 98 100 ≤ st'.best_ratio) := by
  intro sizes
  induction sizes with
  | nil =>
    intro _ st hst
    constructor
    · intro st' h
      unfold scanAllSizes at h
      exact (Sum.inl.inj h) ▸ hst
    · intro st' h
      unfold scanAllSizes at h
      cases h
  | cons ws rest ih =>
    intro hall st hst
    have hws : 1 ≤ ws := hall ws (List.mem_cons_self _ _)
    have hpos := scanPosAux_good nq swn ws hws (swn.length + 1 - ws) 0 st hst
      (by omega)
    constructor
    · intro st' h
      unfold scanAllSizes at h
      cases hp : scanPosAux nq swn ws 0 (swn.length + 1 - ws) st with
      | inr st2 => rw [hp] at h; cases h
      | inl st2 =>
        rw [hp] at h
        exact (ih (fun w hw => hall w (List.mem_cons_of_mem _ hw)) st2
          (hpos.1 st2 hp)).1 st' h
    · intro st' h
      unfold scanAllSizes at h
      cases hp : scanPosAux nq swn ws 0 (swn.length + 1 - ws) st with
      | inr st2 =>
        rw [hp] at h
        have h3 := Sum.inr.inj h
        subst h3
        exact hpos.2 st2 hp
      | inl st2 =>
        rw [hp] at h
        exact (ih (fun w hw => hall w (List.mem_cons_of_mem _ hw)) st2
          (hpos.1 st2 hp)).2 st' h

/-- For thresholds in `(0, 0.98]` the fuzzy phase returns a truthy match
exactly when the ratio it reports reaches the threshold: an early exit
certifies a ratio of at least `0.98 ≥ minr`, and otherwise the final test
`best_ratio ≥ minr` decides; in either success case the recovered window is
a nonempty span, so Python truthiness cannot discard it. -/
theorem fuzzy_truthy_iff (quote source_text : String) (minr : ℚ)
    (h0 : 0 < minr) (h98 : minr ≤ mkRat 98 100) :
    (truthyOpt (find_fuzzy_match quote source_text minr).1 = true
      ↔ minr ≤ (find_fuzzy_match quote source_text minr).2) := by
  unfold find_fuzzy_match
  dsimp only
  by_cases hq : (splitWs (normalize_text quote)).length = 0
  · rw [if_pos hq]
    show truthyOpt none = true ↔ minr ≤ 0
    simp only [truthyOpt, Bool.false_eq_true, false_iff]
    exact not_le.mpr h0
  · rw [if_neg hq]
    have hall : ∀ ws ∈ List.range'
        (max 1 ((splitWs (normalize_text quote)).length - 5))
        (min ((splitWs (normalize_text quote)).length + 5 + 1)
            ((splitWs source_text).length + 1)
          - max 1 ((splitWs (normalize_text quote)).length - 5)), 1 ≤ ws := by
      intro ws hws
      obtain ⟨i, _, hi⟩ := List.mem_range'.mp hws
      omega
    have hgood := scanAllSizes_good (normalize_text quote)
      ((splitWs source_text).map lowerStr) _ hall ⟨0, 0, 0⟩ (Or.inl rfl)
    cases hscan : scanAllSizes (normalize_text quote)
        ((splitWs source_text).map lowerStr)
        (List.range' (max 1 ((splitWs (normalize_text quote)).length - 5))
          (min ((splitWs (normalize_text quote)).length + 5 + 1)
              ((splitWs source_text).length + 1)
            - max 1 ((splitWs (normalize_text quote)).length - 5)))
        ⟨0, 0, 0⟩ with
    | inr st =>
      obtain ⟨⟨hlt, hle⟩, hr⟩ := hgood.2 st hscan
      rw [List.length_map] at hle
      have hw := joinWords_take_drop_ne (splitWs source_text)
        (splitWs_words_ne source_text) st.best_start st.best_end hlt hle
      dsimp only
      refine iff_of_true ?_ (le_trans h98 hr)
      simp only [truthyOpt, Bool.not_eq_true', beq_eq_false_iff_ne]
      intro he
      exact hw (by rw [he]; rfl)
    | inl st =>
      dsimp only
      by_cases hbr : minr ≤ st.best_ratio
      · rw [if_pos hbr]
        dsimp only
        have hne : st.best_ratio ≠ 0 := by
          intro h00
          rw [h00] at hbr
          exact absurd (lt_of_lt_of_le h0 hbr) (lt_irrefl 0)
        rcases hgood.1 st hscan with h00 | ⟨hlt, hle⟩
        · exact absurd h00 hne
        · rw [List.length_map] at hle
          have hw := joinWords_take_drop_ne (splitWs source_text)
            (splitWs_words_ne source_text) st.best_start st.best_end hlt hle
          refine iff_of_true ?_ hbr
          simp only [truthyOpt, Bool.not_eq_true', beq_eq_false_iff_ne]
          intro he
          exact hw (by rw [he]; rfl)
      · rw [if_neg hbr]
        dsimp only
        exact iff_of_false (by simp [truthyOpt]) hbr

/-- Claim C5 (amended): when the exact phase fails and the threshold lies
in `(0, 0.98]`, the validator returns valid exactly when the ratio reported
by the fuzzy scan reaches the threshold, the result always carries that
ratio, and a failure carries the explanatory message recommending a
non-verbatim finding type.  (For thresholds above `0.98` the early
termination can accept a window below the threshold; see the
counterexample.) -/
theorem fuzzy_threshold_iff (quote source_text : String) (minr : ℚ)
    (hsrc : ¬ ((trimChars source_text.toList).length < 10))
    (hex : truthyOpt (find_exact_match quote source_text) = false)
    (h0 : 0 < minr) (h98 : minr ≤ mkRat 98 100) :
    ((validate_direct_quote quote source_text minr).valid = true
      ↔ minr ≤ (find_fuzzy_match quote source_text minr).2)
    ∧ (validate_direct_quote quote source_text minr).match_ratio
        = (find_fuzzy_match quote source_text minr).2
    ∧ ((validate_direct_quote quote source_text minr).valid = false →
        (validate_direct_quote quote source_text minr).error
          = some (quoteNotFoundMsg (find_fuzzy_match quote source_text minr).2)) := by
  unfold validate_direct_quote
  rw [if_neg hsrc]
  dsimp only
  rw [hex]
  simp only [Bool.false_eq_true, if_false]
  by_cases hf : truthyOpt (find_fuzzy_match quote source_text minr).1 = true
  · rw [if_pos hf]
    refine ⟨iff_of_true rfl ((fuzzy_truthy_iff quote source_text minr h0 h98).mp hf),
      rfl, ?_⟩
    intro hcontra
    cases hcontra
  · rw [if_neg hf]
    refine ⟨?_, rfl, fun _ => rfl⟩
    refine iff_of_false (by simp) ?_
    intro hr
    exact hf ((fuzzy_truthy_iff quote source_text minr h0 h98).mpr hr)

/-- Witness for the amended claim C5 at a concrete quote with one letter
changed against a short source page. -/
theorem fuzzy_threshold_iff_witness :
    (¬ ((trimChars ("hello world plus ten").toList).length < 10))
    ∧ truthyOpt (find_exact_match ("hello wqrld") ("hello world plus ten")) = false
    ∧ (0 : ℚ) < mkRat 9 10 ∧ mkRat 9 10 ≤ mkRat 98 100
    ∧ (((validate_direct_quote ("hello wqrld") ("hello world plus ten")
          (mkRat 9 10)).valid = true
        ↔ mkRat 9 10 ≤ (find_fuzzy_match ("hello wqrld")
            ("hello world plus ten") (mkRat 9 10)).2)
      ∧ (validate_direct_quote ("hello wqrld") ("hello world plus ten")
            (mkRat 9 10)).match_ratio
          = (find_fuzzy_match ("hello wqrld") ("hello world plus ten")
              (mkRat 9 10)).2
      ∧ ((validate_direct_quote ("hello wqrld") ("hello world plus ten")
            (mkRat 9 10)).valid = false →
          (validate_direct_quote ("hello wqrld") ("hello world plus ten")
              (mkRat 9 10)).error
            = some (quoteNotFoundMsg (find_fuzzy_match ("hello wqrld")
                ("hello world plus ten") (mkRat 9 10)).2))) :=
  ⟨by decide, by decide, by decide, by decide,
   fuzzy_threshold_iff ("hello wqrld") ("hello world plus ten") (mkRat 9 10)
     (by decide) (by decide) (by decide) (by decide)⟩
